import Mathlib

/-
  Verification development for the multi-document AI editor.

  Shallow embedding of the search / replacement-planning / review / apply
  pipeline of src/components/AISearchReplace.tsx (plus the data model of
  src/types/document.ts and the review dialog's edit handler).

  Document text is modelled as a list of characters.  JavaScript string
  operations used by the code are translated as follows:
    s.toLowerCase()            -> map Char.toLower
    s.substring(a, b)          -> (take b, then drop a)   (all uses have a <= b)
    s.substring(a)             -> drop a
    s.indexOf(t, i)            -> first occurrence position at index >= i
    s.includes(t)              -> some occurrence exists
    s.trim()                   -> drop whitespace at both ends
    s.split('\n').length       -> number of newline characters + 1
    Array.prototype.sort       -> stable sort with the given comparator
                                  (modelled with List.insertionSort, which is
                                   the stable sort for a total preorder)
    x || y (strings)           -> y when x is undefined or empty, else x
-/

set_option maxRecDepth 4000

namespace DocEditor

abbrev Text := List Char

/-- Model of String.prototype.toLowerCase. -/
def lowerL (s : Text) : Text := s.map Char.toLower

/-- first argument matches at the head of the second argument. -/
def startsWithL : Text → Text → Bool
  | [], _ => true
  | _ :: _, [] => false
  | a :: as, b :: bs => a == b && startsWithL as bs

/-- `needle` occurs in `hay` at index `i`. -/
def matchesAt (needle hay : Text) (i : Nat) : Bool :=
  startsWithL needle (hay.drop i)

/-- All occurrence positions of `needle` in `hay`, in ascending order. -/
def allOccs (needle hay : Text) : List Nat :=
  (List.range (hay.length + 1)).filter (fun i => matchesAt needle hay i)

/-- Model of String.prototype.includes. -/
def containsL (needle hay : Text) : Bool := !(allOccs needle hay).isEmpty

/-- Greedy selection of non-overlapping occurrences: keep a position when it is
at or past the current scan index, then advance the scan index past the match.
This is the `while ((index = content.indexOf(searchLower, index)) !== -1)`
loop of handleSearch, whose body ends with `index += searchTerm.length`. -/
def selectNO (len : Nat) : List Nat → Nat → List Nat
  | [], _ => []
  | p :: ps, low => if p < low then selectNO len ps low else p :: selectNO len ps (p + len)

/-- The positions produced by the literal-scan loop of handleSearch. -/
def scanPositions (needle hay : Text) : List Nat :=
  selectNO needle.length (allOccs needle hay) 0

/-- Model of String.prototype.substring with both bounds (all call sites of the
source have first bound <= second bound). -/
def substz (s : Text) (a b : Nat) : Text := (s.take b).drop a

/-- Line number of offset `i`: `content.substring(0, i).split('\n').length`. -/
def lineOf (s : Text) (i : Nat) : Nat :=
  ((s.take i).filter (fun c => c == '\n')).length + 1

/-- Model of String.prototype.trim. -/
def trimL (s : Text) : Text :=
  ((s.dropWhile (fun c => c.isWhitespace)).reverse.dropWhile
    (fun c => c.isWhitespace)).reverse

/-- Document lifecycle status (src/types/document.ts). -/
inductive DocStatus where
  | uploading
  | processing
  | ready
  | error
deriving DecidableEq

/-- Document record (src/types/document.ts).  `uploadedAt` is a timestamp and
`url` the optional public URL; neither is read by the pipeline. -/
structure Document where
  id : String
  name : String
  type : String
  size : Nat
  uploadedAt : Int
  content : Text
  status : DocStatus
  url : Option String := none
deriving DecidableEq

/-- SearchMatch record (src/types/document.ts); optional fields are Option. -/
structure SearchMatch where
  id : String
  originalText : Text
  context : Text
  position : Nat
  line : Nat
  selected : Bool
  relevance : Option Int := none
  reason : Option String := none
  suggestedReplacement : Option Text := none
  contextualReplacement : Option Text := none
  approved : Option Bool := none
deriving DecidableEq

/-- SearchResult record (src/types/document.ts). -/
structure SearchResult where
  documentId : String
  documentName : String
  «matches» : List SearchMatch
deriving DecidableEq

/-- One parsed candidate object of the AI search response
(`{text, context, relevance, reason, sentence}`); the `sentence` field is
never read by handleSearch and is omitted. -/
structure AICandidate where
  text : Text
  context : Text
  relevance : Int
  reason : String
deriving DecidableEq

/-- Outcome of the delegated semantic-scan call in handleSearch.
`failure` is a rejected `blink.ai.generateText` awaited call (the outer catch);
`response cands` is a completed call after JSON extraction, where a response
with no bracketed JSON array or with a fragment that fails to decode leaves
`aiMatches` as the empty list (`response []`). -/
inductive DelegateResult where
  | failure
  | response (cands : List AICandidate)

/-- A match built from an accepted AI candidate (handleSearch, AI branch). -/
def mkAIMatch (doc : Document) (c : AICandidate) (n : Nat) (p : Nat) : SearchMatch :=
  { id := "ai_match_" ++ toString n
    originalText := c.text
    context := c.context
    position := p
    line := lineOf doc.content p
    selected := true
    relevance := some c.relevance
    reason := some c.reason }

/-- Processing of the parsed AI candidate list (handleSearch): keep candidates
with relevance at least 6 that are relocated by a literal (case-sensitive)
`indexOf` of their own text; the match counter advances only on a push. -/
def processAI (doc : Document) : List AICandidate → Nat → List SearchMatch
  | [], _ => []
  | c :: cs, n =>
    if 6 ≤ c.relevance then
      match (allOccs c.text doc.content).head? with
      | some p => mkAIMatch doc c n p :: processAI doc cs (n + 1)
      | none => processAI doc cs n
    else processAI doc cs n

/-- A match built by the literal-scan loop of handleSearch at position `p`
with counter value `n`; `pfx` is the id stem (`simple_match_` in the in-try
fallback, `fallback_match_` in the catch branch). -/
def mkScanMatch (pfx : String) (doc : Document) (q : Text) (n p : Nat) : SearchMatch :=
  { id := pfx ++ toString n
    originalText := substz doc.content p (p + q.length)
    context := substz doc.content (p - 100) (min doc.content.length (p + q.length + 100))
    position := p
    line := lineOf doc.content p
    selected := true
    relevance := some 10
    reason := some "Exact text match" }

/-- Matches built from the scan positions, numbering them with the
post-incremented `matchId` counter. -/
def mkMatches (pfx : String) (doc : Document) (q : Text) :
    List Nat → Nat → List SearchMatch
  | [], _ => []
  | p :: ps, n => mkScanMatch pfx doc q n p :: mkMatches pfx doc q ps (n + 1)

/-- The literal scan of handleSearch: case-insensitive non-overlapping
substring scan of the document content for the query. -/
def literalScan (pfx : String) (q : Text) (doc : Document) : List SearchMatch :=
  mkMatches pfx doc q (scanPositions (lowerL q) (lowerL doc.content)) 0

/-- `m.relevance || 0` as used by the sort comparator. -/
def relOrZero (m : SearchMatch) : Int := m.relevance.getD 0

/-- `matches.sort((a, b) => (b.relevance || 0) - (a.relevance || 0))`:
a stable sort by descending relevance. -/
def sortRelDesc (l : List SearchMatch) : List SearchMatch :=
  List.insertionSort (fun a b => relOrZero b ≤ relOrZero a) l

/-- The sentinel phrases of extraction failure checked by handleSearch
(and by DocumentLibrary's status badge). -/
def hasSentinel (s : Text) : Bool :=
  containsL "Content extraction failed".data s ||
  containsL "Content extraction not supported".data s ||
  containsL "Content extraction returned minimal text".data s

/-- The per-document skip test of handleSearch (lines 546-554): a document is
scanned only when it is ready, sentinel-free and its trimmed content has at
least 20 characters. -/
def searchableDoc (d : Document) : Bool :=
  decide (d.status = DocStatus.ready) &&
  !(hasSentinel d.content) &&
  decide (20 ≤ (trimL d.content).length)

/-- The per-document body of handleSearch: process the delegate outcome,
fall back to the literal scan when no AI match was kept, and sort by
descending relevance (the catch branch pushes its fallback matches unsorted).
An empty returned list means no SearchResult entry is pushed for the
document. -/
def searchOne (q : Text) (doc : Document) (dr : DelegateResult) : List SearchMatch :=
  match dr with
  | .response cands =>
      let aiMs := processAI doc cands 0
      sortRelDesc (if aiMs.isEmpty then literalScan "simple_match_" q doc else aiMs)
  | .failure => literalScan "fallback_match_" q doc

/-- The document loop of handleSearch: skip unsearchable documents, and push
a SearchResult entry only when the match list is non-empty.  `oracle` gives
each document's delegate outcome. -/
def searchDocs (q : Text) (docs : List Document)
    (oracle : Document → DelegateResult) : List SearchResult :=
  docs.filterMap (fun d =>
    if searchableDoc d then
      let ms := searchOne q d (oracle d)
      if ms.isEmpty then none else some ⟨d.id, d.name, ms⟩
    else none)

/-- Outcome of one per-match delegate call in generateContextualReplacements:
`failure` is a rejected awaited call (caught, falls back to the literal
replacement), `noJson` a completed call whose text holds no braced JSON
object, and `parsed r e` a decoded `{replacement, explanation}` object (the
explanation property may be absent). -/
inductive PlannerResult where
  | failure
  | noJson
  | parsed (replacement : Text) (explanation : Option String)

/-- JavaScript `x || y` on an optional string value: `y` when `x` is
undefined or the empty string, else the string held by `x`. -/
def jsOrT (x : Option Text) (y : Text) : Text :=
  match x with
  | some s => if s.isEmpty then y else s
  | none => y

/-- JavaScript `x || y` where both sides are optional strings
(`aiResult.explanation || match.reason`). -/
def jsOrS (x : Option String) (y : Option String) : Option String :=
  match x with
  | some s => if s = "" then y else some s
  | none => y

/-- The body of the per-match loop of generateContextualReplacements: the
returned counter is the number of delegate invocations made (1 in smart
mode, 0 otherwise). -/
def enhanceMatch (smart : Bool) (replText : Text) (m : SearchMatch)
    (pr : PlannerResult) : SearchMatch × Nat :=
  if smart then
    match pr with
    | .parsed r e =>
        ({ m with suggestedReplacement := some replText
                  contextualReplacement := some r
                  reason := jsOrS e m.reason }, 1)
    | .noJson =>
        ({ m with suggestedReplacement := some replText
                  contextualReplacement := some replText }, 1)
    | .failure =>
        ({ m with suggestedReplacement := some replText
                  contextualReplacement := some replText }, 1)
  else
    ({ m with suggestedReplacement := some replText
              contextualReplacement := some replText }, 0)

/-- The per-document match loop of generateContextualReplacements, collecting
the enhanced matches and the total number of delegate invocations. -/
def enhanceMatches (smart : Bool) (replText : Text)
    (oracle : SearchMatch → PlannerResult) :
    List SearchMatch → List SearchMatch × Nat
  | [] => ([], 0)
  | m :: ms =>
      let r := enhanceMatch smart replText m (oracle m)
      let rest := enhanceMatches smart replText oracle ms
      (r.1 :: rest.1, r.2 + rest.2)

/-- ReplacementPreview record (src/types/document.ts). -/
structure ReplacementPreview where
  documentId : String
  documentName : String
  «matches» : List SearchMatch
  previewContent : Text
deriving DecidableEq

/-- ReviewState record (src/types/document.ts). -/
structure ReviewState where
  isReviewing : Bool
  previews : List ReplacementPreview
  currentPreviewIndex : Nat
deriving DecidableEq

/-- The reset review state written on close / after apply. -/
def emptyReview : ReviewState :=
  { isReviewing := false, previews := [], currentPreviewIndex := 0 }

/-- `preview.matches.filter(match => match.approved === true)`. -/
def approvedOf (p : ReplacementPreview) : List SearchMatch :=
  p.«matches».filter (fun m => decide (m.approved = some true))

/-- The replacement spliced for a match by applyApprovedChanges:
`match.contextualReplacement || match.suggestedReplacement || replacementText`. -/
def chooseRepl (replText : Text) (m : SearchMatch) : Text :=
  jsOrT m.contextualReplacement (jsOrT m.suggestedReplacement replText)

/-- One splice of applyApprovedChanges:
`newContent.substring(0, pos) + replacement + newContent.substring(pos + len)`. -/
def spliceMatch (replText : Text) (c : Text) (m : SearchMatch) : Text :=
  c.take m.position ++ chooseRepl replText m ++
    c.drop (m.position + m.originalText.length)

/-- The order in which applyApprovedChanges performs the splices of one
preview: the code iterates over `approvedMatches.reverse()`. -/
def spliceOrder (p : ReplacementPreview) : List SearchMatch :=
  (approvedOf p).reverse

/-- First document with the given id, together with its index
(`updatedDocuments.find(doc => doc.id === preview.documentId)`). -/
def findFirstDoc : List Document → String → Option (Nat × Document)
  | [], _ => none
  | d :: ds, docId =>
      if d.id = docId then some (0, d)
      else (findFirstDoc ds docId).map (fun r => (r.1 + 1, r.2))

/-- Replace the content of the document at an index (the in-place mutation
`document.content = newContent` on the found array element). -/
def setContent : List Document → Nat → Text → List Document
  | [], _, _ => []
  | d :: ds, 0, c => { d with content := c } :: ds
  | d :: ds, i + 1, c => d :: setContent ds i c

/-- The per-preview body of applyApprovedChanges: skip when no match is
approved or the document is absent, otherwise splice each approved match in
`spliceOrder` and count one applied change per splice. -/
def applyPreview (replText : Text) (st : List Document × Nat)
    (p : ReplacementPreview) : List Document × Nat :=
  let approved := approvedOf p
  if approved.isEmpty then st
  else
    match findFirstDoc st.1 p.documentId with
    | none => st
    | some r =>
        ((setContent st.1 r.1
            ((spliceOrder p).foldl (spliceMatch replText) r.2.content)),
         st.2 + approved.length)

/-- The document-updating loop of applyApprovedChanges, returning the
updated document array and the `appliedChanges` counter. -/
def applyApprovedChanges (replText : Text) (rs : ReviewState)
    (docs : List Document) : List Document × Nat :=
  rs.previews.foldl (applyPreview replText) (docs, 0)

/-- The approved-match count computed by handleCloseReview. -/
def countApproved (rs : ReviewState) : Nat :=
  (rs.previews.map (fun p => (approvedOf p).length)).sum

/-- Result of closing the review: the document array afterwards, the number
of applied changes, the review state afterwards, and whether the updated
document set was written back (`onDocumentsUpdated` was invoked, which
happens only inside applyApprovedChanges). -/
structure CloseOutcome where
  documents : List Document
  appliedChanges : Nat
  reviewState : ReviewState
  wroteBack : Bool
deriving DecidableEq

/-- handleCloseReview: apply when at least one match is approved, otherwise
reset the review state without touching the documents. -/
def handleCloseReview (replText : Text) (rs : ReviewState)
    (docs : List Document) : CloseOutcome :=
  if 0 < countApproved rs then
    let r := applyApprovedChanges replText rs docs
    { documents := r.1, appliedChanges := r.2
      reviewState := emptyReview, wroteBack := true }
  else
    { documents := docs, appliedChanges := 0
      reviewState := emptyReview, wroteBack := false }

/-- handleApproveAll on one preview. -/
def approveAllPreview (p : ReplacementPreview) : ReplacementPreview :=
  { p with «matches» := p.«matches».map (fun m => { m with approved := some true }) }

/-- handleApproveAll: set `approved` on every match of every open preview. -/
def handleApproveAll (rs : ReviewState) : ReviewState :=
  { rs with previews := rs.previews.map approveAllPreview }

/-- handleRejectAll: clear `approved` on every match of every open preview. -/
def handleRejectAll (rs : ReviewState) : ReviewState :=
  { rs with previews := rs.previews.map (fun p =>
      { p with «matches» := p.«matches».map (fun m => { m with approved := some false }) }) }

/-- handleEditReplacement: overwrite the `contextualReplacement` of one match
of one preview with the text typed in the review dialog (passed through
unchanged by the dialog's save handler). -/
def handleEditReplacement (docId matchId : String) (newReplacement : Text)
    (rs : ReviewState) : ReviewState :=
  { rs with previews := rs.previews.map (fun p =>
      if p.documentId = docId then
        { p with «matches» := p.«matches».map (fun m =>
            if m.id = matchId then { m with contextualReplacement := some newReplacement }
            else m) }
      else p) }

/-- The ordering property of the splice sequence: every splice is performed
at a position no smaller than any later splice's position. -/
abbrev SpliceDescending (l : List SearchMatch) : Prop :=
  List.Pairwise (fun a b => b.position ≤ a.position) l

/- Concrete fixtures. -/

/-- The example document of the spec's testable properties. -/
def catDoc : Document :=
  { id := "doc1", name := "cats.txt", type := "txt", size := 22, uploadedAt := 0,
    content := "cat sat on the cat mat".data, status := .ready }

def c3scan : List SearchMatch := literalScan "simple_match_" "cat".data catDoc

def c3review : ReviewState :=
  { isReviewing := true
    previews := [⟨"doc1", "cats.txt",
      (enhanceMatches false "dog".data (fun _ => .failure) c3scan).1, []⟩]
    currentPreviewIndex := 0 }

def c3applied : List Document × Nat :=
  applyApprovedChanges "dog".data (handleApproveAll c3review) [catDoc]

/-- An approved match carrying only a position and a matched-text length,
as it reaches applyApprovedChanges. -/
def c1match (mid : String) (pos : Nat) : SearchMatch :=
  { id := mid, originalText := "cat".data, context := [], position := pos,
    line := 1, selected := true, relevance := some 10,
    suggestedReplacement := some "dog".data,
    contextualReplacement := some "dog".data, approved := some true }

/-- A preview whose approved matches are stored in descending position order
(as the relevance sort of handleSearch can produce for delegate matches). -/
def c1preview : ReplacementPreview :=
  ⟨"doc1", "cats.txt", [c1match "a" 15, c1match "b" 0], []⟩

def c2doc : Document :=
  { id := "d2", name := "notes.txt", type := "txt", size := 28, uploadedAt := 0,
    content := "the cat sat on the mat today".data, status := .ready }

/-- A usable delegate candidate whose text is unrelated to the query. -/
def c2cand : AICandidate := ⟨"sat".data, "ctx".data, 8, "related action"⟩

/-- Ready document without sentinel whose raw content has 29 characters but
whose trimmed content has only 19. -/
def c9doc : Document :=
  { id := "d9", name := "short.txt", type := "txt", size := 29, uploadedAt := 0,
    content := List.replicate 19 'a' ++ List.replicate 10 ' ', status := .ready }

/-- A preview whose approved matches are stored in ascending position order
(as the literal scan produces them). -/
def c1ascPreview : ReplacementPreview :=
  ⟨"doc1", "cats.txt", [c1match "b" 0, c1match "a" 15], []⟩

/-- A review state with one pending (neither approved nor rejected) match. -/
def c6review : ReviewState :=
  { isReviewing := true
    previews := [⟨"doc1", "cats.txt", [{ c1match "x" 0 with approved := none }], []⟩]
    currentPreviewIndex := 0 }

/-- An approved match whose contextual replacement was edited to the empty
string while its suggested replacement is non-empty. -/
def c10match : SearchMatch :=
  { id := "m10", originalText := "cat".data, context := [], position := 0,
    line := 1, selected := true, relevance := some 10,
    suggestedReplacement := some "dog".data,
    contextualReplacement := some [], approved := some true }

/-- Pointwise preservation of the identifier, display name and type tag
between a document list and its updated version. -/
def SameShape : List Document → List Document → Prop :=
  List.Forall₂ (fun d d' => d.id = d'.id ∧ d.name = d'.name ∧ d.type = d'.type)

/- Helper lemmas. -/

lemma startsWithL_take : ∀ (n h : Text), startsWithL n h = true → h.take n.length = n
  | [], _, _ => by simp
  | _ :: _, [], hst => by simp [startsWithL] at hst
  | a :: as, b :: bs, hst => by
      simp only [startsWithL, Bool.and_eq_true, beq_iff_eq] at hst
      simp only [List.length_cons, List.take_succ_cons]
      rw [startsWithL_take as bs hst.2, hst.1]

lemma matchesAt_take (n h : Text) (p : Nat) (hm : matchesAt n h p = true) :
    (h.drop p).take n.length = n := startsWithL_take n (h.drop p) hm

lemma scanPositions_head (n h : Text) (p : Nat) (ps : List Nat)
    (he : allOccs n h = p :: ps) :
    ∃ rest, scanPositions n h = p :: rest := by
  unfold scanPositions
  rw [he]
  exact ⟨selectNO n.length ps (p + n.length), by simp [selectNO]⟩

lemma exists_first_scan (pfx : String) (q : Text) (doc : Document)
    (hocc : allOccs (lowerL q) (lowerL doc.content) ≠ []) :
    ∃ p rest,
      literalScan pfx q doc = mkScanMatch pfx doc q 0 p :: rest ∧
      matchesAt (lowerL q) (lowerL doc.content) p = true := by
  obtain ⟨p, ps, he⟩ := List.exists_cons_of_ne_nil hocc
  have hm : matchesAt (lowerL q) (lowerL doc.content) p = true := by
    have hmem : p ∈ allOccs (lowerL q) (lowerL doc.content) := by
      rw [he]; exact List.mem_cons_self _ _
    exact (List.mem_filter.mp hmem).2
  obtain ⟨rest, hrest⟩ := scanPositions_head _ _ p ps he
  refine ⟨p, mkMatches pfx doc q rest 1, ?_, hm⟩
  unfold literalScan
  rw [hrest]
  rfl

lemma lowerL_originalText (pfx : String) (q : Text) (doc : Document) (n p : Nat)
    (hm : matchesAt (lowerL q) (lowerL doc.content) p = true) :
    lowerL (mkScanMatch pfx doc q n p).originalText = lowerL q := by
  show lowerL (substz doc.content p (p + q.length)) = lowerL q
  unfold substz lowerL
  rw [List.map_drop, List.map_take, List.drop_take, Nat.add_sub_cancel_left]
  have h2 := matchesAt_take (lowerL q) (lowerL doc.content) p hm
  have h3 : (lowerL q).length = q.length := List.length_map _ _
  rw [← h3]
  exact h2

lemma sortRelDesc_perm (l : List SearchMatch) : (sortRelDesc l).Perm l :=
  List.perm_insertionSort _ l

lemma mem_sortRelDesc {m : SearchMatch} {l : List SearchMatch} :
    m ∈ sortRelDesc l ↔ m ∈ l := (sortRelDesc_perm l).mem_iff

lemma sortRelDesc_ne_nil {l : List SearchMatch} (h : l ≠ []) : sortRelDesc l ≠ [] := by
  intro hc
  apply h
  have hlen := (sortRelDesc_perm l).length_eq
  rw [hc] at hlen
  exact List.length_eq_zero.mp hlen.symm

lemma mkMatches_relevance (pfx : String) (doc : Document) (q : Text) :
    ∀ (ps : List Nat) (n : Nat) (m : SearchMatch),
      m ∈ mkMatches pfx doc q ps n → m.relevance = some 10 := by
  intro ps
  induction ps with
  | nil => intro n m hm; simp [mkMatches] at hm
  | cons p pt ih =>
      intro n m hm
      rcases List.mem_cons.mp hm with rfl | hm2
      · rfl
      · exact ih (n + 1) m hm2

lemma literalScan_relevance (pfx : String) (q : Text) (doc : Document)
    (m : SearchMatch) (hm : m ∈ literalScan pfx q doc) : m.relevance = some 10 :=
  mkMatches_relevance pfx doc q _ 0 m hm

lemma processAI_relevance (doc : Document) :
    ∀ (cands : List AICandidate) (n : Nat) (m : SearchMatch),
      m ∈ processAI doc cands n → ∃ r, m.relevance = some r ∧ (6 : Int) ≤ r := by
  intro cands
  induction cands with
  | nil => intro n m hm; simp [processAI] at hm
  | cons c cs ih =>
      intro n m hm
      unfold processAI at hm
      by_cases h6 : (6 : Int) ≤ c.relevance
      · rw [if_pos h6] at hm
        cases hh : (allOccs c.text doc.content).head? with
        | some p =>
            rw [hh] at hm
            rcases List.mem_cons.mp hm with rfl | hm2
            · exact ⟨c.relevance, rfl, h6⟩
            · exact ih (n + 1) m hm2
        | none =>
            rw [hh] at hm
            exact ih n m hm
      · rw [if_neg h6] at hm
        exact ih n m hm

lemma sortRelDesc_const (l : List SearchMatch)
    (h : ∀ m ∈ l, m.relevance = some 10) : sortRelDesc l = l := by
  induction l with
  | nil => rfl
  | cons a t ih =>
      have ht : sortRelDesc t = t := ih (fun m hm => h m (List.mem_cons_of_mem _ hm))
      unfold sortRelDesc at ht ⊢
      rw [List.insertionSort, ht]
      cases t with
      | nil => rfl
      | cons b t2 =>
          have ha := h a (List.mem_cons_self _ _)
          have hb := h b (List.mem_cons_of_mem _ (List.mem_cons_self _ _))
          rw [List.orderedInsert, if_pos]
          simp [relOrZero, ha, hb]

/- Claim theorems. -/

/-- Claim C1, as stated, is false: the approved matches of `c1preview` are
produced in descending position order, and applyApprovedChanges merely
reverses that list, so the splice at position 0 is performed before the
splice at position 15 — the claimed sort into reverse position order does
not happen. -/
theorem c1_sort_before_splice_refuted :
    ¬ SpliceDescending (spliceOrder c1preview) := by decide

/-- Claim C3: literal scan of "cat sat on the cat mat" for "cat" yields
exactly two matches of text "cat" at offsets 0 and 15; approving both and
applying with replacement "dog" splices in descending-offset order and yields
"dog sat on the dog mat" with 2 applied changes; re-scanning the result for
"dog" finds exactly two occurrences. -/
theorem c3_cat_dog_example :
    c3scan.map (fun m => m.position) = [0, 15] ∧
    c3scan.map (fun m => m.originalText) = ["cat".data, "cat".data] ∧
    c3scan.length = 2 ∧
    c3applied.1 = [{ catDoc with content := "dog sat on the dog mat".data }] ∧
    c3applied.2 = 2 ∧
    (literalScan "simple_match_" "dog".data
      { catDoc with content := "dog sat on the dog mat".data }).length = 2 := by
  decide

/-- Claim C1 amended: applyApprovedChanges does not sort by position — it
processes each document's approved matches in the reverse of their stored
list order; whenever the approved matches are stored in ascending position
order (as the literal scan produces them), this reversed order is descending
in position, so each splice at position p is performed before any splice at
a smaller position. -/
theorem c1_reverse_splice_descending (p : ReplacementPreview)
    (h : List.Pairwise (fun a b : SearchMatch => a.position ≤ b.position) (approvedOf p)) :
    spliceOrder p = (approvedOf p).reverse ∧ SpliceDescending (spliceOrder p) :=
  ⟨rfl, List.pairwise_reverse.mpr h⟩

theorem c1_reverse_splice_descending_witness :
    spliceOrder c1ascPreview = (approvedOf c1ascPreview).reverse ∧
    SpliceDescending (spliceOrder c1ascPreview) :=
  c1_reverse_splice_descending c1ascPreview (by decide)

/-- Claim C2, as stated, is false: on `c2doc` the query "cat" occurs
literally, yet when the delegate returns the usable candidate "sat"
(relevance 8, relocatable), the fallback literal scan never runs and the
returned match list contains no match whose text case-insensitively equals
the query. -/
theorem c2_exact_match_refuted :
    searchableDoc c2doc = true ∧
    allOccs (lowerL "cat".data) (lowerL c2doc.content) ≠ [] ∧
    searchOne "cat".data c2doc (DelegateResult.response [c2cand]) ≠ [] ∧
    (searchOne "cat".data c2doc (DelegateResult.response [c2cand])).all
      (fun m => !(lowerL m.originalText == lowerL "cat".data)) = true := by
  decide

/-- Claim C2 amended: for a searchable document whose content contains the
(non-empty) query case-insensitively, the search never returns an empty
match list; and whenever the delegate call fails, or its response yields no
usable candidate (so that the literal fallback runs), at least one returned
match's originalText case-insensitively equals the query. -/
theorem c2_nonempty_and_fallback_exact (q : Text) (doc : Document)
    (dr : DelegateResult) (hq : q ≠ [])
    (hocc : allOccs (lowerL q) (lowerL doc.content) ≠ []) :
    searchOne q doc dr ≠ [] ∧
    ((dr = DelegateResult.failure ∨
        ∃ cands, dr = DelegateResult.response cands ∧ processAI doc cands 0 = []) →
      ∃ m ∈ searchOne q doc dr, lowerL m.originalText = lowerL q) := by
  cases dr with
  | failure =>
      obtain ⟨p, rest, hscan, hm⟩ := exists_first_scan "fallback_match_" q doc hocc
      refine ⟨?_, fun _ => ⟨mkScanMatch "fallback_match_" doc q 0 p, ?_, ?_⟩⟩
      · show literalScan "fallback_match_" q doc ≠ []
        rw [hscan]
        simp
      · show _ ∈ literalScan "fallback_match_" q doc
        rw [hscan]
        exact List.mem_cons_self _ _
      · exact lowerL_originalText "fallback_match_" q doc 0 p hm
  | response cands =>
      by_cases hai : (processAI doc cands 0).isEmpty = true
      · obtain ⟨p, rest, hscan, hm⟩ := exists_first_scan "simple_match_" q doc hocc
        have hsearch : searchOne q doc (DelegateResult.response cands) =
            sortRelDesc (literalScan "simple_match_" q doc) := by
          simp [searchOne, hai]
        refine ⟨?_, fun _ => ⟨mkScanMatch "simple_match_" doc q 0 p, ?_, ?_⟩⟩
        · rw [hsearch]
          apply sortRelDesc_ne_nil
          rw [hscan]
          simp
        · rw [hsearch, mem_sortRelDesc, hscan]
          exact List.mem_cons_self _ _
        · exact lowerL_originalText "simple_match_" q doc 0 p hm
      · have hsearch : searchOne q doc (DelegateResult.response cands) =
            sortRelDesc (processAI doc cands 0) := by
          simp [searchOne, hai]
        constructor
        · rw [hsearch]
          apply sortRelDesc_ne_nil
          intro hc
          exact hai (by rw [hc]; rfl)
        · intro hcond
          rcases hcond with hfail | ⟨cands2, heq, hempty⟩
          · exact absurd hfail (by simp)
          · cases heq
            exact absurd hempty (fun hc => hai (by rw [hc]; rfl))

theorem c2_nonempty_and_fallback_exact_witness :
    searchOne "cat".data catDoc DelegateResult.failure ≠ [] ∧
    ((DelegateResult.failure = DelegateResult.failure ∨
        ∃ cands, DelegateResult.failure = DelegateResult.response cands ∧
          processAI catDoc cands 0 = []) →
      ∃ m ∈ searchOne "cat".data catDoc DelegateResult.failure,
        lowerL m.originalText = lowerL "cat".data) :=
  c2_nonempty_and_fallback_exact "cat".data catDoc DelegateResult.failure
    (by decide) (by decide)

/-- Claim C4: when the delegate returns a non-empty candidate list, every
match returned by the search carries a relevance of at least 6 — in
particular no delegate candidate with relevance below 6 ever appears
(fallback literal matches carry relevance 10). -/
theorem c4_relevance_threshold (q : Text) (doc : Document)
    (cands : List AICandidate) (hne : cands ≠ []) :
    ∀ m ∈ searchOne q doc (DelegateResult.response cands),
      ∃ r, m.relevance = some r ∧ (6 : Int) ≤ r := by
  intro m hm
  by_cases hai : (processAI doc cands 0).isEmpty = true
  · have hsearch : searchOne q doc (DelegateResult.response cands) =
        sortRelDesc (literalScan "simple_match_" q doc) := by
      simp [searchOne, hai]
    rw [hsearch, mem_sortRelDesc] at hm
    exact ⟨10, literalScan_relevance "simple_match_" q doc m hm, by norm_num⟩
  · have hsearch : searchOne q doc (DelegateResult.response cands) =
        sortRelDesc (processAI doc cands 0) := by
      simp [searchOne, hai]
    rw [hsearch, mem_sortRelDesc] at hm
    exact processAI_relevance doc cands 0 m hm

theorem c4_relevance_threshold_witness :
    ∃ r, (mkAIMatch c2doc c2cand 0 8).relevance = some r ∧ (6 : Int) ≤ r :=
  c4_relevance_threshold "cat".data c2doc [c2cand] (by decide)
    (mkAIMatch c2doc c2cand 0 8) (by decide)

/-- Claim C5: a delegate response whose extracted JSON fails to decode leaves
the parsed candidate list empty, and the search then returns exactly the
literal-scan result — the same matches with the same identifiers, text,
context, position, line, relevance and reason (the relevance sort is the
identity here because every literal match has relevance 10). -/
theorem c5_malformed_json_literal_fallback (q : Text) (doc : Document) :
    searchOne q doc (DelegateResult.response []) =
      literalScan "simple_match_" q doc := by
  have hempty : processAI doc ([] : List AICandidate) 0 = [] := rfl
  have hsearch : searchOne q doc (DelegateResult.response []) =
      sortRelDesc (literalScan "simple_match_" q doc) := by
    simp [searchOne, hempty]
  rw [hsearch]
  exact sortRelDesc_const _ (literalScan_relevance "simple_match_" q doc)

/-- Claim C6: when no match of any open preview is approved,
handleCloseReview resets the review state, leaves the document list
untouched and performs no write-back. -/
theorem c6_no_approval_no_mutation (replText : Text) (rs : ReviewState)
    (docs : List Document)
    (h : ∀ p ∈ rs.previews, ∀ m ∈ p.«matches», m.approved ≠ some true) :
    handleCloseReview replText rs docs =
      { documents := docs, appliedChanges := 0,
        reviewState := emptyReview, wroteBack := false } := by
  have hz : countApproved rs = 0 := by
    unfold countApproved
    apply List.sum_eq_zero
    intro x hx
    simp only [List.mem_map] at hx
    obtain ⟨p, hp, rfl⟩ := hx
    have hap : approvedOf p = [] := by
      unfold approvedOf
      rw [List.filter_eq_nil_iff]
      intro m hm
      simpa using h p hp m hm
    rw [hap]
    rfl
  unfold handleCloseReview
  rw [hz]
  rfl

theorem c6_no_approval_no_mutation_witness :
    handleCloseReview "dog".data c6review [catDoc] =
      { documents := [catDoc], appliedChanges := 0,
        reviewState := emptyReview, wroteBack := false } :=
  c6_no_approval_no_mutation "dog".data c6review [catDoc] (by decide)

lemma sameShape_refl (docs : List Document) : SameShape docs docs :=
  List.forall₂_same.mpr (fun _ _ => ⟨rfl, rfl, rfl⟩)

lemma sameShape_setContent {docs docs' : List Document}
    (h : SameShape docs docs') :
    ∀ (i : Nat) (c : Text), SameShape docs (setContent docs' i c) := by
  induction h with
  | nil => intro i c; exact List.Forall₂.nil
  | @cons a b as bs hab htail ih =>
      intro i c
      cases i with
      | zero => exact List.Forall₂.cons ⟨hab.1, hab.2.1, hab.2.2⟩ htail
      | succ j => exact List.Forall₂.cons hab (ih j c)

lemma findFirstDoc_some_of_shape {docs docs' : List Document} {s : String}
    (h : SameShape docs docs') :
    (∃ d ∈ docs, d.id = s) → ∃ r, findFirstDoc docs' s = some r := by
  induction h with
  | nil => intro hex; simp at hex
  | @cons a b as bs hab htail ih =>
      intro hex
      by_cases hid : b.id = s
      · exact ⟨(0, b), by simp [findFirstDoc, hid]⟩
      · have hex2 : ∃ d ∈ as, d.id = s := by
          rcases hex with ⟨d, hd, hds⟩
          rcases List.mem_cons.mp hd with rfl | hd2
          · exact absurd (hab.1.symm.trans hds) hid
          · exact ⟨d, hd2, hds⟩
        obtain ⟨r, hr⟩ := ih hex2
        exact ⟨(r.1 + 1, r.2), by simp [findFirstDoc, hid, hr]⟩

lemma approvedOf_approveAll (p : ReplacementPreview) :
    approvedOf (approveAllPreview p) =
      p.«matches».map (fun m => { m with approved := some true }) := by
  apply List.filter_eq_self.mpr
  intro m hm
  simp only [approveAllPreview, List.mem_map] at hm
  obtain ⟨x, hx, rfl⟩ := hm
  simp

lemma apply_foldl_shape_count (replText : Text) (docs : List Document) :
    ∀ (previews : List ReplacementPreview) (cur : List Document) (n : Nat),
      SameShape docs cur →
      (∀ p ∈ previews, ∃ d ∈ docs, d.id = p.documentId) →
      SameShape docs
        ((previews.map approveAllPreview).foldl (applyPreview replText) (cur, n)).1 ∧
      ((previews.map approveAllPreview).foldl (applyPreview replText) (cur, n)).2 =
        n + (previews.map (fun p => p.«matches».length)).sum := by
  intro previews
  induction previews with
  | nil =>
      intro cur n hshape _
      exact ⟨hshape, by simp⟩
  | cons p ps ih =>
      intro cur n hshape hex
      have hexp : ∃ d ∈ docs, d.id = p.documentId := hex p (List.mem_cons_self _ _)
      have hexps : ∀ p2 ∈ ps, ∃ d ∈ docs, d.id = p2.documentId :=
        fun p2 hp2 => hex p2 (List.mem_cons_of_mem _ hp2)
      simp only [List.map_cons, List.foldl_cons]
      have hap : approvedOf (approveAllPreview p) =
          p.«matches».map (fun m => { m with approved := some true }) :=
        approvedOf_approveAll p
      cases hmat : p.«matches» with
      | nil =>
          have hstep : applyPreview replText (cur, n) (approveAllPreview p) = (cur, n) := by
            unfold applyPreview
            rw [if_pos]
            rw [hap, hmat]
            rfl
          rw [hstep]
          obtain ⟨hs, hc⟩ := ih cur n hshape hexps
          refine ⟨hs, ?_⟩
          rw [hc]
          simp
      | cons m ms =>
          have hne : ¬ ((approvedOf (approveAllPreview p)).isEmpty = true) := by
            rw [hap, hmat]
            simp
          obtain ⟨r, hr⟩ := findFirstDoc_some_of_shape hshape hexp
          have hstep : applyPreview replText (cur, n) (approveAllPreview p) =
              (setContent cur r.1
                 ((spliceOrder (approveAllPreview p)).foldl (spliceMatch replText)
                    r.2.content),
               n + p.«matches».length) := by
            unfold applyPreview
            rw [if_neg hne]
            have hr2 : findFirstDoc cur (approveAllPreview p).documentId = some r := hr
            rw [hr2]
            have hlen : (approvedOf (approveAllPreview p)).length = p.«matches».length := by
              rw [hap, List.length_map]
            rw [hlen]
          rw [hstep]
          obtain ⟨hs, hc⟩ :=
            ih (setContent cur r.1
                 ((spliceOrder (approveAllPreview p)).foldl (spliceMatch replText)
                    r.2.content))
               (n + p.«matches».length)
               (sameShape_setContent hshape _ _) hexps
          refine ⟨hs, ?_⟩
          rw [hc]
          simp only [List.map_cons, List.sum_cons]
          rw [hmat]
          omega

/-- Claim C7: approving all matches and applying splices exactly one
replacement per match of every previewed document (the applied-changes
counter equals the total number of previewed matches), and the resulting
document list has, pointwise, the same id, name and type as before. -/
theorem c7_approve_all_apply (replText : Text) (rs : ReviewState)
    (docs : List Document)
    (hex : ∀ p ∈ rs.previews, ∃ d ∈ docs, d.id = p.documentId) :
    SameShape docs (applyApprovedChanges replText (handleApproveAll rs) docs).1 ∧
    (applyApprovedChanges replText (handleApproveAll rs) docs).2 =
      (rs.previews.map (fun p => p.«matches».length)).sum := by
  have h := apply_foldl_shape_count replText docs rs.previews docs 0
    (sameShape_refl docs) hex
  exact ⟨h.1, h.2.trans (Nat.zero_add _)⟩

theorem c7_approve_all_apply_witness :
    SameShape [catDoc]
      (applyApprovedChanges "dog".data (handleApproveAll c3review) [catDoc]).1 ∧
    (applyApprovedChanges "dog".data (handleApproveAll c3review) [catDoc]).2 =
      (c3review.previews.map (fun p => p.«matches».length)).sum :=
  c7_approve_all_apply "dog".data c3review [catDoc] (by decide)

/-- Claim C8: with smart replacement off, the planner makes no delegate call
and gives every selected match a contextualReplacement equal, character for
character, to the literal replacement text. -/
theorem c8_smart_off_literal (replText : Text)
    (oracle : SearchMatch → PlannerResult) (ms : List SearchMatch) :
    (enhanceMatches false replText oracle ms).2 = 0 ∧
    (enhanceMatches false replText oracle ms).1 =
      ms.map (fun m => { m with suggestedReplacement := some replText,
                                contextualReplacement := some replText }) := by
  induction ms with
  | nil => exact ⟨rfl, rfl⟩
  | cons m t ih =>
      refine ⟨?_, ?_⟩
      · simp [enhanceMatches, enhanceMatch, ih.1]
      · simp [enhanceMatches, enhanceMatch, ih.2]

/-- Claim C9, as stated, is false: `c9doc` is ready, sentinel-free and its
content has 29 characters, yet handleSearch excludes it, because the test is
on the trimmed content length (19 here), not the content length. -/
theorem c9_untrimmed_length_refuted :
    searchableDoc c9doc = false ∧
    c9doc.status = DocStatus.ready ∧
    hasSentinel c9doc.content = false ∧
    20 ≤ c9doc.content.length ∧
    searchDocs "cat".data [c9doc] (fun _ => DelegateResult.failure) = [] := by
  decide

/-- Claim C9 amended: a document is searchable exactly when it is ready, its
content contains no extraction-failure sentinel and its trimmed content has
at least 20 characters; the search scans exactly the searchable documents. -/
theorem c9_searchable_characterization (d : Document) (q : Text)
    (docs : List Document) (oracle : Document → DelegateResult) :
    (searchableDoc d = true ↔
      (d.status = DocStatus.ready ∧ hasSentinel d.content = false ∧
        20 ≤ (trimL d.content).length)) ∧
    searchDocs q docs oracle = searchDocs q (docs.filter searchableDoc) oracle := by
  constructor
  · unfold searchableDoc
    simp [Bool.and_eq_true, decide_eq_true_iff, Bool.not_eq_true', and_assoc]
  · induction docs with
    | nil => rfl
    | cons d2 t ih =>
        unfold searchDocs at ih ⊢
        by_cases hs : searchableDoc d2 = true
        · simp only [List.filter_cons, hs, if_true, List.filterMap_cons, ih]
        · simp only [List.filter_cons, hs, if_false, List.filterMap_cons,
            Bool.false_eq_true, ih]

/-- Claim C10: an approved match whose contextualReplacement was edited to
the empty string during review, but whose suggestedReplacement is non-empty,
is applied with the suggestedReplacement: the empty edit is overridden by
the falsy-string fallback chain and cannot delete the matched text. -/
theorem c10_empty_edit_overridden (replText s c : Text) (m : SearchMatch)
    (h0 : m.approved = some true)
    (h1 : m.contextualReplacement = some [])
    (h2 : m.suggestedReplacement = some s) (h3 : s ≠ []) :
    chooseRepl replText m = s ∧
    spliceMatch replText c m =
      c.take m.position ++ s ++ c.drop (m.position + m.originalText.length) := by
  have hc : chooseRepl replText m = s := by
    unfold chooseRepl jsOrT
    rw [h1, h2]
    cases s with
    | nil => exact absurd rfl h3
    | cons a t => rfl
  exact ⟨hc, by unfold spliceMatch; rw [hc]⟩

theorem c10_empty_edit_overridden_witness :
    chooseRepl "x".data c10match = "dog".data ∧
    spliceMatch "x".data "cat mat".data c10match =
      ("cat mat".data.take c10match.position ++ "dog".data ++
        "cat mat".data.drop (c10match.position + c10match.originalText.length)) :=
  c10_empty_edit_overridden "x".data "dog".data "cat mat".data c10match
    (by decide) (by decide) (by decide) (by decide)

end DocEditor
